import Mathlib

set_option maxHeartbeats 1000000

/-!
# Verification of the focus-org status-line tool (src/main.rs)

Shallow embedding of the Rust source.  Strings are modelled as `List Char`
(all inputs of interest are ASCII, so Rust's byte indices coincide with
character indices).  `chrono::NaiveDateTime` is modelled as `Int`: the
number of seconds since the civil epoch 1970-01-01 00:00:00 (chrono's
values are points on the civil time line and the program only ever
compares, subtracts and offsets them).  Fallible Rust code that can
`panic!`/`unwrap` is modelled with `Except Unit`, where `.error ()` is a
panic aborting the run.
-/

namespace FocusOrg

/-- `chrono::NaiveDateTime`, as seconds since 1970-01-01 00:00:00. -/
abbrev NaiveDateTime := Int

/-- Rust `str::split(sep)` on a single separator character: splits at every
occurrence, keeping empty pieces; the result is always non-empty. -/
def splitChar (sep : Char) : List Char → List (List Char)
  | [] => [[]]
  | c :: rest =>
    let r := splitChar sep rest
    if c = sep then [] :: r
    else (c :: r.headD []) :: r.tail

/-- The character set trimmed by `parse_date_str`: `['[', '<', '>', ']']`. -/
def isBracketChar (c : Char) : Bool := c = '[' || c = '<' || c = '>' || c = ']'

/-- Rust `str::trim_matches(['[', '<', '>', ']'])`: drop those characters
from both ends. -/
def trimMatches (l : List Char) : List Char :=
  ((l.dropWhile isBracketChar).reverse.dropWhile isBracketChar).reverse

/-- Whether `pat` is a prefix of `s` (Rust `str::starts_with`). -/
def beginsWith : List Char → List Char → Bool
  | [], _ => true
  | _ :: _, [] => false
  | p :: ps, c :: cs => p = c && beginsWith ps cs

/-- Rust `str::find(pat)` for a literal pattern: index of the first
occurrence of `pat` as a contiguous substring. -/
def findSubstrIdx (pat : List Char) : List Char → Option Nat
  | [] => if beginsWith pat [] then some 0 else none
  | c :: rest =>
    if beginsWith pat (c :: rest) then some 0
    else (findSubstrIdx pat rest).map (· + 1)

/-- Rust `str::find(char set)`: index of the first character satisfying `p`. -/
def findCharIdx (p : Char → Bool) : List Char → Option Nat
  | [] => none
  | c :: rest => if p c then some 0 else (findCharIdx p rest).map (· + 1)

/-- Numeric value of a digit string, `none` unless non-empty and all ASCII
digits.  (chrono's numeric field parsing is modelled as a digit run.) -/
def parseNatDigits (l : List Char) : Option Nat :=
  if l ≠ [] && l.all Char.isDigit then
    some (l.foldl (fun acc c => acc * 10 + (c.toNat - 48)) 0)
  else none

/-- Gregorian leap year, as validated by `chrono::NaiveDate`. -/
def isLeapYear (y : Nat) : Bool := (y % 4 = 0 && y % 100 ≠ 0) || y % 400 = 0

/-- Days in month `m` of year `y` (chrono's calendar validation). -/
def daysInMonth (y m : Nat) : Nat :=
  if m = 2 then (if isLeapYear y then 29 else 28)
  else if m = 4 || m = 6 || m = 9 || m = 11 then 30
  else 31

/-- Day number of civil date `y-m-d` relative to 1970-01-01 (the standard
days-from-civil computation, matching chrono's internal day count). -/
def daysFromCivil (y : Int) (m d : Nat) : Int :=
  let yy : Int := if m ≤ 2 then y - 1 else y
  let era : Int := Int.fdiv yy 400
  let yoe : Int := yy - era * 400
  let mp : Int := (Int.ofNat m + 9) % 12
  let doy : Int := (153 * mp + 2) / 5 + Int.ofNat d - 1
  let doe : Int := yoe * 365 + yoe / 4 - yoe / 100 + doy
  era * 146097 + doe - 719468

/-- The `NaiveDateTime` at date `y-m-d`, time `hh:mi` (seconds zero, as for
every value this program parses). -/
def mkNDT (y m d hh mi : Nat) : NaiveDateTime :=
  daysFromCivil (Int.ofNat y) m d * 86400 + (hh * 3600 + mi * 60 : Nat)

/-- `NaiveDate::parse_from_str(s, "%Y-%m-%d")`: three dash-separated digit
runs forming a valid calendar date. -/
def parseYMD (l : List Char) : Option (Nat × Nat × Nat) :=
  match splitChar '-' l with
  | [ys, ms, ds] =>
    match parseNatDigits ys, parseNatDigits ms, parseNatDigits ds with
    | some y, some m, some d =>
      if 1 ≤ m && m ≤ 12 && 1 ≤ d && d ≤ daysInMonth y m then some (y, m, d)
      else none
    | _, _, _ => none
  | _ => none

/-- The `"%H:%M"` part of `NaiveDateTime::parse_from_str`: two
colon-separated digit runs with `hh ≤ 23`, `mi ≤ 59`. -/
def parseHM (l : List Char) : Option (Nat × Nat) :=
  match splitChar ':' l with
  | [hs, ms] =>
    match parseNatDigits hs, parseNatDigits ms with
    | some h, some m => if h ≤ 23 && m ≤ 59 then some (h, m) else none
    | _, _ => none
  | _ => none

/-- The date-only branch of `parse_date_str`: parse `base_splits[0]` as
`%Y-%m-%d` (`.unwrap()`: failure panics) and return the full-day interval
`[midnight, midnight + 1 day]`. -/
def dateOnlyResult (d0 : List Char) : Except Unit (NaiveDateTime × NaiveDateTime) :=
  match parseYMD d0 with
  | none => .error ()
  | some (y, m, d) =>
    let t := mkNDT y m d 0 0
    .ok (t, t + 86400)

/-- `NaiveDateTime::parse_from_str(date ++ " " ++ time, "%Y-%m-%d %H:%M")`
on the joined pieces (`.unwrap()`: failure panics).  The join-then-parse in
the source is equivalent to parsing the two space-free pieces separately. -/
def timeResult (d0 hm : List Char) : Except Unit NaiveDateTime :=
  match parseYMD d0, parseHM hm with
  | some (y, m, d), some (hh, mi) => .ok (mkNDT y m d hh mi)
  | _, _ => .error ()

/-- `parse_date_str` from src/main.rs: trim bracket characters, split on
single spaces; if fewer than three pieces, or the third piece starts with
`+`/`-`/`.` (repeater marker), the stamp is date-only; otherwise the third
piece is a time or `-`-separated time range.  `base_splits[2].chars().nth(0)
.unwrap()` panics if the third piece is empty. -/
def parse_date_str (datestr : List Char) : Except Unit (NaiveDateTime × NaiveDateTime) :=
  match splitChar ' ' (trimMatches datestr) with
  | [] => .error ()
  | d0 :: rest =>
    match rest with
    | [] => dateOnlyResult d0
    | [_] => dateOnlyResult d0
    | _ :: t2 :: _ =>
      match t2 with
      | [] => .error ()
      | c :: _ =>
        if c = '+' || c = '-' || c = '.' then dateOnlyResult d0
        else
          match splitChar '-' t2 with
          | [] => .error ()
          | [hm] => (timeResult d0 hm).map (fun t => (t, t))
          | hm1 :: hm2 :: _ => do
            let s ← timeResult d0 hm1
            let e ← timeResult d0 hm2
            .ok (s, e)

/-- `TimeRange` from src/main.rs (the source field `end` is a Lean keyword,
rendered here as `stop`). -/
structure TimeRange where
  start : NaiveDateTime
  stop : NaiveDateTime
deriving DecidableEq

/-- `TimeRange::is_during`: strict interior membership. -/
def TimeRange.is_during (tr : TimeRange) (ts : NaiveDateTime) : Bool :=
  decide (tr.start < ts) && decide (ts < tr.stop)

/-- `TimeRange::is_before`: both endpoints strictly precede `ts`. -/
def TimeRange.is_before (tr : TimeRange) (ts : NaiveDateTime) : Bool :=
  decide (tr.start < ts) && decide (tr.stop < ts)

/-- `parse_timerange` from src/main.rs: if the buffer contains `--`, parse
each side as a single stamp and keep each side's parsed *start*; otherwise
parse the whole buffer as a single stamp. -/
def parse_timerange (buf : List Char) : Except Unit TimeRange :=
  match findSubstrIdx ('-' :: '-' :: []) buf with
  | some beg => do
    let s ← parse_date_str (buf.take beg)
    let e ← parse_date_str (buf.drop (beg + 2))
    .ok ⟨s.1, e.1⟩
  | none => do
    let se ← parse_date_str buf
    .ok ⟨se.1, se.2⟩

/-- `next_timerange` from src/main.rs: find the first `[`/`<`, then the
first `>`/`]` at or after it, and parse the enclosed slice.  No bracket
pair means no stamp (`None`, not a panic); a malformed stamp inside the
pair panics. -/
def next_timerange (buf : List Char) : Except Unit (Option TimeRange) :=
  match findCharIdx (fun c => c = '[' || c = '<') buf with
  | none => .ok none
  | some s =>
    match findCharIdx (fun c => c = '>' || c = ']') (buf.drop s) with
    | none => .ok none
    | some e => do
      let tr ← parse_timerange ((buf.drop s).take (e + 1))
      .ok (some tr)

/-- `next_prefix_timerange` from src/main.rs: find the literal `pre` and
scan for a stamp after it. -/
def next_prefix_timerange (buf pre : List Char) : Except Unit (Option TimeRange) :=
  match findSubstrIdx pre buf with
  | some c => next_timerange (buf.drop (c + pre.length))
  | none => .ok none

/-- `Heading` from src/main.rs. -/
structure Heading where
  title : List Char
  level : Nat
  state : List Char
  tags : List (List Char)
  scheduled : Option TimeRange
  deadline : Option TimeRange
  logged : List TimeRange
  logged_active : Option NaiveDateTime
  timestamps : List TimeRange
deriving DecidableEq

/-- `Heading::is_action`. -/
def Heading.is_action (h : Heading) : Bool :=
  h.state == "TODO".toList || h.state == "NEXT".toList ||
  h.state == "STARTED".toList || h.state == "PROJECT".toList

/-- `Heading::is_clocked_now`.  The source reads `Local::now()` inside each
predicate; per the design the single instant is passed explicitly. -/
def Heading.is_clocked_now (h : Heading) (now : NaiveDateTime) : Bool :=
  match h.logged_active with
  | none => false
  | some t => decide (t < now)

/-- `Heading::is_action_now`. -/
def Heading.is_action_now (h : Heading) (now : NaiveDateTime) : Bool :=
  if !h.is_action then false
  else
    match h.scheduled with
    | some s => s.is_during now
    | none => false

/-- `Heading::is_event_now`. -/
def Heading.is_event_now (h : Heading) (now : NaiveDateTime) : Bool :=
  if h.is_action then false
  else
    match h.scheduled with
    | some s => s.is_during now
    | none => false

/-- `Heading::is_overdue_now`. -/
def Heading.is_overdue_now (h : Heading) (now : NaiveDateTime) : Bool :=
  if !h.is_action then false
  else
    match h.scheduled with
    | some s => s.is_before now
    | none =>
      match h.deadline with
      | some d => d.is_before now
      | none => false

/-- The four buckets of `main`'s classification loop. -/
inductive Category
  | Clocked
  | ActiveAction
  | ActiveEvent
  | Overdue
deriving DecidableEq

/-- The `if`/`else if` chain in `main` that pushes each heading into at
most one of the four vectors: the first matching predicate wins. -/
def classify (h : Heading) (now : NaiveDateTime) : Option Category :=
  if h.is_clocked_now now then some .Clocked
  else if h.is_action_now now then some .ActiveAction
  else if h.is_event_now now then some .ActiveEvent
  else if h.is_overdue_now now then some .Overdue
  else none

/-- `start_dur < recent_dur` where `recent_dur : Option Int` models the
running minimum, with `none` standing for the initial
`chrono::Duration::max_value()` (larger than any representable
`now - start`). -/
def durLt (a : Int) (b : Option Int) : Bool :=
  match b with
  | none => true
  | some d => decide (a < d)

/-- The scan loop of `Heading::most_recently_started` over the loose
timestamps, carrying `recent_dur`/`recent_range`. -/
def mrsLoop (now : NaiveDateTime) :
    List TimeRange → Option Int → Option TimeRange → Option TimeRange
  | [], _, rr => rr
  | tr :: rest, rd, rr =>
    if now < tr.start then mrsLoop now rest rd rr
    else if durLt (now - tr.start) rd then
      mrsLoop now rest (some (now - tr.start)) (some tr)
    else mrsLoop now rest rd rr

/-- `Heading::most_recently_started`: the scheduled interval if present,
otherwise the loose timestamp with `start ≤ now` minimizing `now - start`. -/
def Heading.most_recently_started (h : Heading) (now : NaiveDateTime) : Option TimeRange :=
  match h.scheduled with
  | some s => some s
  | none => mrsLoop now h.timestamps none none

/-- The `lowest` vector built by `most_recent`:
`h.most_recently_started(now).unwrap()` panics (`.error ()`) on the first
heading with no anchor. -/
def buildLowest (now : NaiveDateTime) :
    List Heading → Except Unit (List (TimeRange × Heading))
  | [] => .ok []
  | h :: rest =>
    match h.most_recently_started now with
    | none => .error ()
    | some tr =>
      match buildLowest now rest with
      | .error e => .error e
      | .ok l => .ok ((tr, h) :: l)

/-- The minimum scan of `most_recent`: start from `lowest[0]` and keep the
pair with strictly smaller anchor start (ties keep the earlier pair). -/
def selectLowest (p : TimeRange × Heading) (l : List (TimeRange × Heading)) :
    TimeRange × Heading :=
  l.foldl (fun best pair => if pair.1.start < best.1.start then pair else best) p

/-- `most_recent` from src/main.rs.  `.error ()` is the `unwrap` panic on a
heading without an anchor (the `.ok none` for a non-empty list is the
unreachable `lowest[0]` indexing, which would also panic). -/
def most_recent (hs : List Heading) (now : NaiveDateTime) : Except Unit (Option Heading) :=
  if hs.length = 0 then .ok none
  else
    match buildLowest now hs with
    | .error e => .error e
    | .ok [] => .error ()
    | .ok (p :: l) => .ok (some (selectLowest p l).2)

/-- The state-keyword strip in `parse_single_org_entry`: a `TODO ` or
`DONE ` prefix is removed and recorded; anything else leaves the empty
state. -/
def parseState (fl : List Char) : List Char × List Char :=
  if beginsWith "TODO ".toList fl then ("TODO".toList, fl.drop 5)
  else if beginsWith "DONE ".toList fl then ("DONE".toList, fl.drop 5)
  else ([], fl)

/-- Rust `str::ends_with(':')`. -/
def endsWithColon (l : List Char) : Bool :=
  match l.getLast? with
  | some c => c = ':'
  | none => false

/-- The tag-extraction section of `parse_single_org_entry`: if the title
ends with `:` and its last space-delimited word starts with `:`, the word's
non-empty `:`-separated segments are the tags.  The title itself is left
untouched by the source. -/
def parseTags (firstline : List Char) : List (List Char) :=
  if endsWithColon firstline then
    let lastword := (splitChar ' ' firstline).getLastD []
    if beginsWith (':' :: []) lastword then
      (splitChar ':' lastword).filter (fun x => !x.isEmpty)
    else []
  else []

/-- The `while entry[line] != ":END:"` skip of a `:PROPERTIES:` block:
returns the lines after the closing `:END:`; running off the end of the
block is an out-of-bounds index, a panic. -/
def skipPastEnd : List (List Char) → Except Unit (List (List Char))
  | [] => .error ()
  | l :: rest => if l = ":END:".toList then .ok rest else skipPastEnd rest

/-- The `:LOGBOOK:` scan loop: collect closed `CLOCK: ` entries (lines
containing `--`) into `logged`, record the start of an open `CLOCK: ` line
(no `--`) as the active clock (later lines overwrite), stop after `:END:`;
running off the end of the block is an out-of-bounds index, a panic. -/
def logbookLoop : List (List Char) → List TimeRange → Option NaiveDateTime →
    Except Unit (List TimeRange × Option NaiveDateTime × List (List Char))
  | [], _, _ => .error ()
  | l :: rest, logged, active =>
    if l = ":END:".toList then .ok (logged, active, rest)
    else if beginsWith "CLOCK: ".toList l then
      if (findSubstrIdx ('-' :: '-' :: []) l).isSome then
        match next_prefix_timerange l "CLOCK: ".toList with
        | .error e => .error e
        | .ok (some tr) => logbookLoop rest (logged ++ [tr]) active
        | .ok none => logbookLoop rest logged active
      else
        match parse_date_str (l.drop 7) with
        | .error e => .error e
        | .ok (t, _) => logbookLoop rest logged (some t)
    else logbookLoop rest logged active

/-- One attempt of the regex `(<\d{4}[^>]+>)(--<\d{4}[^>]+>)?`'s first
group at the head of `s`: `<`, four digits, one or more non-`>` characters,
`>`.  Returns the matched slice and the remainder. -/
def matchStamp (s : List Char) : Option (List Char × List Char) :=
  match s with
  | '<' :: d1 :: d2 :: d3 :: d4 :: rest =>
    if d1.isDigit && d2.isDigit && d3.isDigit && d4.isDigit then
      let body := rest.takeWhile (fun c => c ≠ '>')
      match rest.drop body.length with
      | '>' :: after =>
        if body.isEmpty then none
        else some ('<' :: d1 :: d2 :: d3 :: d4 :: (body ++ ('>' :: [])), after)
      | _ => none
    else none
  | _ => none

/-- A full match of the regex at the head of `s`: a stamp optionally
followed by `--` and a second stamp. -/
def matchStampPair (s : List Char) : Option (List Char × List Char) :=
  match matchStamp s with
  | none => none
  | some (m1, r1) =>
    match r1 with
    | '-' :: '-' :: r2 =>
      match matchStamp r2 with
      | some (m2, r3) => some (m1 ++ '-' :: '-' :: m2, r3)
      | none => some (m1, r1)
    | _ => some (m1, r1)

/-- `Regex::find_iter`: leftmost non-overlapping matches, resuming after
each match.  `fuel` bounds the scan by the remaining length (each step
consumes at least one character), keeping the recursion structural. -/
def findMatchesGo : Nat → List Char → List (List Char)
  | 0, _ => []
  | _ + 1, [] => []
  | fuel + 1, c :: rest =>
    match matchStampPair (c :: rest) with
    | some (m, after) => m :: findMatchesGo fuel after
    | none => findMatchesGo fuel rest

/-- All matches of the loose-timestamp regex in one line. -/
def findMatches (s : List Char) : List (List Char) :=
  findMatchesGo s.length s

/-- The loose-timestamp scan over the remaining lines of a block: every
regex match is parsed with `parse_timerange` (a malformed match panics)
and appended in file order. -/
def looseScan (lines : List (List Char)) : Except Unit (List TimeRange) :=
  match lines with
  | [] => .ok []
  | l :: rest =>
    match (findMatches l).mapM parse_timerange with
    | .error e => .error e
    | .ok trs =>
      match looseScan rest with
      | .error e => .error e
      | .ok rest2 => .ok (trs ++ rest2)

/-- The body of `parse_single_org_entry` after the title line, starting at
`line = 1`: `SCHEDULED: `/`DEADLINE: ` on the second line, a
`:PROPERTIES:` block, a `:LOGBOOK:` block, then the loose-timestamp scan.
The `entry[line] == ":PROPERTIES:"` test indexes unguarded, so an
exhausted block at that point panics. -/
def parseBodyFields (l1 : List Char) (ls : List (List Char)) :
    Except Unit (Option TimeRange × Option TimeRange × List TimeRange ×
      Option NaiveDateTime × List TimeRange) := do
  let sch ← next_prefix_timerange l1 "SCHEDULED: ".toList
  let dl ← next_prefix_timerange l1 "DEADLINE: ".toList
  let rest1 := if sch.isSome || dl.isSome then ls else l1 :: ls
  match rest1 with
  | [] => .error ()
  | p0 :: ps => do
    let rest2 ← if p0 = ":PROPERTIES:".toList then skipPastEnd ps else .ok (p0 :: ps)
    let (lg, la, rest3) ←
      match rest2 with
      | [] => Except.ok ([], none, [])
      | b0 :: bs =>
        if b0 = ":LOGBOOK:".toList then logbookLoop bs [] none
        else Except.ok ([], none, b0 :: bs)
    let tss ← looseScan rest3
    .ok (sch, dl, lg, la, tss)

/-- `parse_single_org_entry` from src/main.rs: count the leading `*`s,
drop them plus one separator character (too-short lines yield no heading),
strip the state keyword, extract tags, then parse the body lines. -/
def parse_single_org_entry (entry : List (List Char)) : Except Unit (Option Heading) :=
  match entry with
  | [] => .ok none
  | e0 :: restLines =>
    let level := (e0.takeWhile (fun c => c = '*')).length
    if e0.length < level + 1 then .ok none
    else
      let fl0 := e0.drop (level + 1)
      let sf := parseState fl0
      let tags := parseTags sf.2
      match restLines with
      | [] => .ok (some ⟨sf.2, level, sf.1, tags, none, none, [], none, []⟩)
      | l1 :: ls =>
        match parseBodyFields l1 ls with
        | .error e => .error e
        | .ok (sch, dl, lg, la, tss) =>
          .ok (some ⟨sf.2, level, sf.1, tags, sch, dl, lg, la, tss⟩)

/-- The block accumulation loop of `parse_org_dates`: a line starting with
`*` begins a new block, but only flushes the accumulated block when it is
non-empty; every line is appended to the current block. -/
def splitBlocksGo : List (List Char) → List (List Char) → List (List (List Char))
  | [], rest => if rest.isEmpty then [] else rest :: []
  | l :: ls, rest =>
    if (beginsWith ('*' :: []) l && !rest.isEmpty) = true then
      rest :: splitBlocksGo ls (l :: [])
    else splitBlocksGo ls (rest ++ (l :: []))

/-- Split a file's lines into heading blocks (`parse_org_dates`'s loop). -/
def splitBlocks (lines : List (List Char)) : List (List (List Char)) :=
  splitBlocksGo lines []

/-- The pure content of `parse_org_dates`: parse every block in order and
emit the successfully parsed headings; a panic in any block aborts. -/
def parse_org_dates (lines : List (List Char)) : Except Unit (List Heading) :=
  match (splitBlocks lines).mapM parse_single_org_entry with
  | .error e => .error e
  | .ok parsed => .ok (parsed.filterMap id)

/-- The inverse of `splitChar`: interleave the separator back. -/
def joinSep (sep : Char) : List (List Char) → List Char
  | [] => []
  | x :: [] => x
  | x :: xs => x ++ sep :: joinSep sep xs

/-- Concrete heading with an open clock and a scheduled window containing
the instant `1000`, for exercising the classifier. -/
def hClocked : Heading :=
  ⟨"task".toList, 1, "TODO".toList, [], some ⟨500, 1500⟩, none, [], some 200, []⟩

/-- Concrete `ActiveAction` heading scheduled at 09:00–12:30 on
2024-01-01, for exercising the selector. -/
def hNine : Heading :=
  ⟨"early".toList, 1, "TODO".toList, [],
    some ⟨mkNDT 2024 1 1 9 0, mkNDT 2024 1 1 12 30⟩, none, [], none, []⟩

/-- Concrete `ActiveAction` heading scheduled at 11:00–12:30 on
2024-01-01, for exercising the selector. -/
def hEleven : Heading :=
  ⟨"late".toList, 1, "TODO".toList, [],
    some ⟨mkNDT 2024 1 1 11 0, mkNDT 2024 1 1 12 30⟩, none, [], none, []⟩

/-- Concrete heading whose anchor is defined (scheduled present). -/
def hAnchored : Heading :=
  ⟨"good".toList, 1, "TODO".toList, [], some ⟨100, 200⟩, none, [], none, []⟩

/-- Concrete heading with neither a scheduled interval nor any loose
timestamp: its selection anchor is undefined. -/
def hAnchorless : Heading :=
  ⟨"bad".toList, 1, "TODO".toList, [], none, none, [], none, []⟩

/-! ## Helper lemmas about the string primitives -/

theorem splitChar_cons (sep c : Char) (rest : List Char) :
    splitChar sep (c :: rest) =
      if c = sep then [] :: splitChar sep rest
      else (c :: (splitChar sep rest).headD []) :: (splitChar sep rest).tail := rfl

theorem splitChar_ne_nil (sep : Char) (l : List Char) : splitChar sep l ≠ [] := by
  cases l with
  | nil => simp [splitChar]
  | cons c rest =>
    unfold splitChar
    by_cases h : c = sep <;> simp [h]

theorem splitChar_not_mem {sep : Char} {l : List Char} (h : sep ∉ l) :
    splitChar sep l = [l] := by
  induction l with
  | nil => rfl
  | cons c rest ih =>
    have hc : c ≠ sep := fun he => h (he ▸ List.mem_cons_self c rest)
    have hr : sep ∉ rest := fun hm => h (List.mem_cons_of_mem c hm)
    unfold splitChar
    simp [hc, ih hr]

theorem splitChar_cons_append {sep : Char} {a : List Char} (b : List Char)
    (ha : sep ∉ a) : splitChar sep (a ++ sep :: b) = a :: splitChar sep b := by
  induction a with
  | nil => simp [splitChar]
  | cons c a2 ih =>
    have hc : c ≠ sep := fun he => ha (he ▸ List.mem_cons_self c a2)
    have ha2 : sep ∉ a2 := fun hm => ha (List.mem_cons_of_mem c hm)
    have hrec := ih ha2
    rw [List.cons_append, splitChar_cons, if_neg hc, hrec]
    simp

theorem joinSep_splitChar (sep : Char) (l : List Char) :
    joinSep sep (splitChar sep l) = l := by
  induction l with
  | nil => rfl
  | cons c rest ih =>
    unfold splitChar
    by_cases hc : c = sep
    · subst hc
      simp only [if_pos rfl]
      rcases hr : splitChar c rest with _ | ⟨x, xs⟩
      · exact absurd hr (splitChar_ne_nil c rest)
      · rw [hr] at ih
        simp only [joinSep, List.nil_append]
        exact congrArg (c :: ·) ih
    · simp only [if_neg hc]
      rcases hr : splitChar sep rest with _ | ⟨x, xs⟩
      · exact absurd hr (splitChar_ne_nil sep rest)
      · rw [hr] at ih
        cases xs with
        | nil =>
          simp only [joinSep] at ih ⊢
          simp [List.headD, List.tail, joinSep, ih]
        | cons y ys =>
          simp only [joinSep] at ih ⊢
          simp only [List.headD, List.tail]
          rw [List.cons_append, ih]

theorem splitChar_pair {sep : Char} {l a b : List Char}
    (h : splitChar sep l = [a, b]) : l = a ++ sep :: b := by
  have hj := joinSep_splitChar sep l
  rw [h] at hj
  simpa [joinSep] using hj.symm

theorem splitChar_triple {sep : Char} {l a b c : List Char}
    (h : splitChar sep l = [a, b, c]) : l = a ++ sep :: (b ++ sep :: c) := by
  have hj := joinSep_splitChar sep l
  rw [h] at hj
  simpa [joinSep] using hj.symm

theorem parseNatDigits_some {l : List Char} {n : Nat}
    (h : parseNatDigits l = some n) : l ≠ [] ∧ l.all Char.isDigit = true := by
  unfold parseNatDigits at h
  split at h
  · next hc =>
    simp only [Bool.and_eq_true, decide_eq_true_eq] at hc
    exact ⟨hc.1, hc.2⟩
  · cases h

theorem parseHM_decompose {ts : List Char} {h m : Nat}
    (hp : parseHM ts = some (h, m)) :
    ∃ hs ms, ts = hs ++ ':' :: ms ∧ hs ≠ [] ∧
      hs.all Char.isDigit = true ∧ ms.all Char.isDigit = true := by
  unfold parseHM at hp
  split at hp
  all_goals first
    | (cases hp)
    | (next hs ms heq =>
        split at hp
        all_goals first
          | (cases hp)
          | (next h2 m2 hh hm =>
              have d1 := parseNatDigits_some hh
              have d2 := parseNatDigits_some hm
              exact ⟨hs, ms, splitChar_pair heq, d1.1, d1.2, d2.2⟩))

theorem parseYMD_decompose {ds : List Char} {y m d : Nat}
    (hp : parseYMD ds = some (y, m, d)) :
    ∃ ys ms dds, ds = ys ++ '-' :: (ms ++ '-' :: dds) ∧ ys ≠ [] ∧
      ys.all Char.isDigit = true ∧ ms.all Char.isDigit = true ∧
      dds.all Char.isDigit = true := by
  unfold parseYMD at hp
  split at hp
  all_goals first
    | (cases hp)
    | (next ys ms dds heq =>
        split at hp
        all_goals first
          | (cases hp)
          | (next y2 m2 d2 h1 h2 h3 =>
              have e1 := parseNatDigits_some h1
              have e2 := parseNatDigits_some h2
              have e3 := parseNatDigits_some h3
              exact ⟨ys, ms, dds, splitChar_triple heq, e1.1, e1.2, e2.2, e3.2⟩))

theorem isBracketChar_eq_true {c : Char} (h : isBracketChar c = true) :
    c = '[' ∨ c = '<' ∨ c = '>' ∨ c = ']' := by
  unfold isBracketChar at h
  simp only [Bool.or_eq_true, decide_eq_true_eq] at h
  tauto

theorem digit_not_bracket {c : Char} (h : c.isDigit = true) :
    isBracketChar c = false := by
  cases hb : isBracketChar c
  · rfl
  · rcases isBracketChar_eq_true hb with rfl | rfl | rfl | rfl <;> simp_all

theorem digit_not_space {c : Char} (h : c.isDigit = true) : c ≠ ' ' := by
  intro he; subst he; simp at h

/-- Characters of a string accepted by `parseYMD` are digits or `-`. -/
theorem parseYMD_chars {ds : List Char} {y m d : Nat}
    (hp : parseYMD ds = some (y, m, d)) :
    ∀ c ∈ ds, c.isDigit = true ∨ c = '-' := by
  rcases parseYMD_decompose hp with ⟨ys, ms, dds, rfl, _, h1, h2, h3⟩
  intro c hc
  simp only [List.mem_append, List.mem_cons] at hc
  simp only [List.all_eq_true] at h1 h2 h3
  rcases hc with h | rfl | h | rfl | h
  · exact Or.inl (by simpa using h1 c h)
  · exact Or.inr rfl
  · exact Or.inl (by simpa using h2 c h)
  · exact Or.inr rfl
  · exact Or.inl (by simpa using h3 c h)

/-- Characters of a string accepted by `parseHM` are digits or `:`, and the
string starts with a digit. -/
theorem parseHM_chars {ts : List Char} {hh mi : Nat}
    (hp : parseHM ts = some (hh, mi)) :
    (∀ c ∈ ts, c.isDigit = true ∨ c = ':') ∧
    ∃ c0 ts0, ts = c0 :: ts0 ∧ c0.isDigit = true := by
  rcases parseHM_decompose hp with ⟨hs, ms, rfl, hne, h1, h2⟩
  simp only [List.all_eq_true] at h1 h2
  constructor
  · intro c hc
    simp only [List.mem_append, List.mem_cons] at hc
    rcases hc with h | rfl | h
    · exact Or.inl (by simpa using h1 c h)
    · exact Or.inr rfl
    · exact Or.inl (by simpa using h2 c h)
  · rcases hs with _ | ⟨c0, hs0⟩
    · exact absurd rfl hne
    · exact ⟨c0, hs0 ++ ':' :: ms, rfl, by simpa using h1 c0 (List.mem_cons_self c0 hs0)⟩

theorem dropWhile_eq_self_of {p : Char → Bool} {l : List Char}
    (h : ∀ c ∈ l, p c = false) : l.dropWhile p = l := by
  cases l with
  | nil => rfl
  | cons c rest =>
    rw [List.dropWhile_cons, if_neg]
    simp [h c (List.mem_cons_self c rest)]

theorem trimMatches_eq_self {l : List Char}
    (h : ∀ c ∈ l, isBracketChar c = false) : trimMatches l = l := by
  unfold trimMatches
  rw [dropWhile_eq_self_of h, dropWhile_eq_self_of, List.reverse_reverse]
  intro c hc
  exact h c (List.mem_reverse.mp hc)

/-- No space occurs in a `parseYMD`-accepted or `parseHM`-accepted piece,
and no bracket character either. -/
theorem ymd_piece_clean {ds : List Char} {y m d : Nat}
    (hp : parseYMD ds = some (y, m, d)) :
    ∀ c ∈ ds, c ≠ ' ' ∧ isBracketChar c = false := by
  intro c hc
  rcases parseYMD_chars hp c hc with hd | rfl
  · exact ⟨digit_not_space hd, digit_not_bracket hd⟩
  · exact ⟨by decide, by decide⟩

theorem hm_piece_clean {ts : List Char} {hh mi : Nat}
    (hp : parseHM ts = some (hh, mi)) :
    ∀ c ∈ ts, c ≠ ' ' ∧ isBracketChar c = false ∧ c ≠ '-' := by
  intro c hc
  rcases (parseHM_chars hp).1 c hc with hd | rfl
  · refine ⟨digit_not_space hd, digit_not_bracket hd, ?_⟩
    intro he; subst he; simp at hd
  · exact ⟨by decide, by decide, by decide⟩

/-! ## Claim C1 -/

/-- Claim C1, counterexample: the stamp `<2024-01-01 09:00>` — a date
followed directly by a single `HH:MM` with no day-name token — is NOT
parsed as a point in time.  The code reads the time from the third
space-separated token, so with only two tokens the stamp falls into the
date-only branch: the result is the full-day interval
`[2024-01-01 00:00, 2024-01-02 00:00]`, whose start and end differ and
whose start is midnight, not 09:00. -/
theorem C1_counter :
    parse_timerange "<2024-01-01 09:00>".toList =
      .ok ⟨mkNDT 2024 1 1 0 0, mkNDT 2024 1 1 0 0 + 86400⟩ ∧
    mkNDT 2024 1 1 0 0 ≠ mkNDT 2024 1 1 0 0 + 86400 ∧
    mkNDT 2024 1 1 0 0 ≠ mkNDT 2024 1 1 9 0 := by
  refine ⟨rfl, by decide, by decide⟩

/-- Claim C1, amended: a point-in-time interval with `start = end` at the
given date and minute is produced for stamps of the form
`YYYY-MM-DD Dow HH:MM` — the time must be the *third* space-separated
token, i.e. a day-name (or any space-free, bracket-free token) must sit
between the date and the time; the time token must contain no internal
`-`.  (A stamp `YYYY-MM-DD HH:MM` without that middle token is instead
parsed date-only, per the counterexample.) -/
theorem C1_amended (ds dow ts : List Char) (y m d hh mi : Nat)
    (hds : parseYMD ds = some (y, m, d))
    (hts : parseHM ts = some (hh, mi))
    (hdow : ∀ c ∈ dow, c ≠ ' ' ∧ isBracketChar c = false) :
    parse_date_str (ds ++ ' ' :: (dow ++ ' ' :: ts)) =
      .ok (mkNDT y m d hh mi, mkNDT y m d hh mi) := by
  have hdsc := ymd_piece_clean hds
  have htsc := hm_piece_clean hts
  have htrim : trimMatches (ds ++ ' ' :: (dow ++ ' ' :: ts)) =
      ds ++ ' ' :: (dow ++ ' ' :: ts) := by
    apply trimMatches_eq_self
    intro c hc
    simp only [List.mem_append, List.mem_cons] at hc
    rcases hc with h | rfl | h | rfl | h
    · exact (hdsc c h).2
    · decide
    · exact (hdow c h).2
    · decide
    · exact (htsc c h).2.1
  have hnods : ' ' ∉ ds := fun hm => (hdsc ' ' hm).1 rfl
  have hnodow : ' ' ∉ dow := fun hm => (hdow ' ' hm).1 rfl
  have hnots : ' ' ∉ ts := fun hm => (htsc ' ' hm).1 rfl
  have hsplit : splitChar ' ' (ds ++ ' ' :: (dow ++ ' ' :: ts)) = [ds, dow, ts] := by
    rw [splitChar_cons_append _ hnods, splitChar_cons_append _ hnodow,
      splitChar_not_mem hnots]
  rcases (parseHM_chars hts).2 with ⟨c0, ts0, rfl, hc0⟩
  have hnodash : '-' ∉ c0 :: ts0 := fun hm => (htsc '-' hm).2.2 rfl
  have hc0ne : ¬(c0 = '+' || c0 = '-' || c0 = '.') = true := by
    simp only [Bool.or_eq_true, decide_eq_true_eq]
    rintro ((rfl | rfl) | rfl) <;> simp_all
  unfold parse_date_str
  rw [htrim, hsplit]
  simp only [hc0ne, if_neg, Bool.not_eq_true]
  rw [splitChar_not_mem hnodash]
  unfold timeResult
  rw [hds]
  dsimp only
  rw [hts]
  rfl

/-- Claim C1, witness: the amended theorem applied at the concrete stamp
`2024-01-01 Mon 09:00`, giving the point interval at 2024-01-01 09:00. -/
theorem C1_amended_wit :
    parseYMD "2024-01-01".toList = some (2024, 1, 1) ∧
    parseHM "09:00".toList = some (9, 0) ∧
    parse_date_str "2024-01-01 Mon 09:00".toList =
      .ok (mkNDT 2024 1 1 9 0, mkNDT 2024 1 1 9 0) := by
  refine ⟨by decide, by decide, ?_⟩
  have h := C1_amended "2024-01-01".toList "Mon".toList "09:00".toList
    2024 1 1 9 0 (by decide) (by decide) (by decide)
  exact h

/-! ## Claim C2 -/

/-- Claim C2, counterexample: the claimed example
`<2024-01-01 09:00>--<2024-01-03 18:00>` does NOT yield
`start = 2024-01-01T09:00` / `end = 2024-01-03T18:00`.  Each half lacks a
day-name token, so each half is parsed date-only and the result is the two
midnights `2024-01-01T00:00` / `2024-01-03T00:00`. -/
theorem C2_counter :
    parse_timerange "<2024-01-01 09:00>--<2024-01-03 18:00>".toList =
      .ok ⟨mkNDT 2024 1 1 0 0, mkNDT 2024 1 3 0 0⟩ ∧
    mkNDT 2024 1 1 0 0 ≠ mkNDT 2024 1 1 9 0 ∧
    mkNDT 2024 1 3 0 0 ≠ mkNDT 2024 1 3 18 0 := by
  refine ⟨rfl, by decide, by decide⟩

/-- Claim C2, amended: for a stamp containing `--`, the two sides (split
at the first `--`) are each parsed as a single-stamp spec, and the result
is `{start: left.start, end: right.start}` — each half's own end component
is discarded.  The halves obey the single-stamp rules, so the claimed
concrete values 09:00/18:00 arise only when each half carries a day-name
token (e.g. `<2024-01-01 Mon 09:00>--<2024-01-03 Wed 18:00>`); without it
each half is date-only and the two starts are midnights. -/
theorem C2_amended (buf : List Char) (i : Nat)
    (p q : NaiveDateTime × NaiveDateTime)
    (hfind : findSubstrIdx ('-' :: '-' :: []) buf = some i)
    (hleft : parse_date_str (buf.take i) = .ok p)
    (hright : parse_date_str (buf.drop (i + 2)) = .ok q) :
    parse_timerange buf = .ok ⟨p.1, q.1⟩ := by
  unfold parse_timerange
  rw [hfind]
  dsimp only
  rw [hleft]
  simp only [Bind.bind, Except.bind]
  rw [hright]

/-- Claim C2, witness: the amended theorem applied at the concrete stamp
`<2024-01-01 Mon 09:00>--<2024-01-03 Wed 18:00>`, whose halves parse as
points 09:00 and 18:00, giving start 2024-01-01T09:00 and end
2024-01-03T18:00. -/
theorem C2_amended_wit :
    findSubstrIdx ('-' :: '-' :: []) "<2024-01-01 Mon 09:00>--<2024-01-03 Wed 18:00>".toList = some 22 ∧
    parse_timerange "<2024-01-01 Mon 09:00>--<2024-01-03 Wed 18:00>".toList =
      .ok ⟨mkNDT 2024 1 1 9 0, mkNDT 2024 1 3 18 0⟩ := by
  refine ⟨by decide, ?_⟩
  exact C2_amended "<2024-01-01 Mon 09:00>--<2024-01-03 Wed 18:00>".toList 22
    (mkNDT 2024 1 1 9 0, mkNDT 2024 1 1 9 0)
    (mkNDT 2024 1 3 18 0, mkNDT 2024 1 3 18 0)
    (by decide) rfl rfl

/-! ## Claim C6 -/

theorem dateOnlyResult_ok {d0 : List Char} {s e : NaiveDateTime}
    (h : dateOnlyResult d0 = .ok (s, e)) : e = s + 86400 := by
  unfold dateOnlyResult at h
  split at h
  · cases h
  · rw [Except.ok.injEq, Prod.mk.injEq] at h
    rw [← h.1, ← h.2]

theorem timeResult_ok {d0 hm : List Char} {t : NaiveDateTime}
    (h : timeResult d0 hm = .ok t) :
    ∃ y m d hh mi, parseYMD d0 = some (y, m, d) ∧
      parseHM hm = some (hh, mi) ∧ t = mkNDT y m d hh mi := by
  unfold timeResult at h
  split at h
  · next y m d hh mi h1 h2 =>
    exact ⟨y, m, d, hh, mi, h1, h2, by injection h with h3; exact h3.symm⟩
  · cases h

theorem mkNDT_sub (y m d h1 m1 h2 m2 : Nat) :
    mkNDT y m d h2 m2 - mkNDT y m d h1 m1 =
      60 * ((h2 * 60 + m2 : Int) - (h1 * 60 + m1)) := by
  unfold mkNDT
  push_cast
  ring

/-- Claim C6, counterexample: the parser accepts the reversed same-day
range `<2024-01-01 Mon 10:00-09:00>` and produces a `TimeRange` with
`start > end`, violating the claimed invariant `start <= end`. -/
theorem C6_counter :
    parse_timerange "<2024-01-01 Mon 10:00-09:00>".toList =
      .ok ⟨mkNDT 2024 1 1 10 0, mkNDT 2024 1 1 9 0⟩ ∧
    mkNDT 2024 1 1 9 0 < mkNDT 2024 1 1 10 0 := by
  refine ⟨rfl, by decide⟩

/-- Claim C6, amended: every accepted single stamp yields either the
full-day interval (`end = start + 86400`, date-only case), a point
(`end = start`), or — in the `HH:MM-HH:MM` case — endpoints on the same
day with `end - start = 60·(t2 - t1)` for the two parsed times, so
`start <= end` holds for every accepted stamp except a time-reversed
range (`t2 < t1`); and for a `--` double-range, `start`/`end` are the two
halves' starts, so `start <= end` holds iff the left start is not after
the right start. -/
theorem C6_amended (datestr : List Char) (s e : NaiveDateTime)
    (hp : parse_date_str datestr = .ok (s, e)) :
    e = s + 86400 ∨ e = s ∨
    ∃ d0 b t2 rest hm1 hm2 more h1 m1 h2 m2,
      splitChar ' ' (trimMatches datestr) = d0 :: b :: t2 :: rest ∧
      splitChar '-' t2 = hm1 :: hm2 :: more ∧
      parseHM hm1 = some (h1, m1) ∧ parseHM hm2 = some (h2, m2) ∧
      e - s = 60 * ((h2 * 60 + m2 : Int) - (h1 * 60 + m1)) := by
  unfold parse_date_str at hp
  rcases hsp : splitChar ' ' (trimMatches datestr) with _ | ⟨d0, _ | ⟨b, _ | ⟨t2, rest⟩⟩⟩ <;>
    rw [hsp] at hp <;> dsimp only at hp
  · cases hp
  · exact Or.inl (dateOnlyResult_ok hp)
  · exact Or.inl (dateOnlyResult_ok hp)
  · rcases t2 with _ | ⟨c, t2r⟩
    · cases hp
    · dsimp only at hp
      by_cases hcc : (decide (c = '+') || decide (c = '-') || decide (c = '.')) = true
      · rw [if_pos hcc] at hp
        exact Or.inl (dateOnlyResult_ok hp)
      · rw [if_neg hcc] at hp
        rcases hsd : splitChar '-' (c :: t2r) with _ | ⟨hm1, _ | ⟨hm2, more⟩⟩ <;>
          rw [hsd] at hp <;> dsimp only at hp
        · cases hp
        · rcases ht : timeResult d0 hm1 with _ | t
          · rw [ht] at hp; cases hp
          · rw [ht] at hp
            simp only [Except.map, Except.ok.injEq, Prod.mk.injEq] at hp
            exact Or.inr (Or.inl (hp.2.symm.trans hp.1))
        · rcases ht1 : timeResult d0 hm1 with _ | t1 <;> rw [ht1] at hp
          · cases hp
          · simp only [Bind.bind, Except.bind] at hp
            rcases ht2 : timeResult d0 hm2 with _ | t2 <;> rw [ht2] at hp
            · cases hp
            · simp only [Except.ok.injEq, Prod.mk.injEq] at hp
              rcases timeResult_ok ht1 with ⟨y1, mo1, d1, hh1, mi1, hy1, hhm1, rfl⟩
              rcases timeResult_ok ht2 with ⟨y2, mo2, d2, hh2, mi2, hy2, hhm2, rfl⟩
              rw [hy1] at hy2
              injection hy2 with hy2e
              obtain ⟨rfl, rfl, rfl⟩ : y1 = y2 ∧ mo1 = mo2 ∧ d1 = d2 := by
                have h1 := congrArg Prod.fst hy2e
                have h2 := congrArg (fun p => p.2.1) hy2e
                have h3 := congrArg (fun p => p.2.2) hy2e
                exact ⟨h1, h2, h3⟩
              refine Or.inr (Or.inr ⟨d0, b, c :: t2r, rest, hm1, hm2, more,
                hh1, mi1, hh2, mi2, rfl, hsd, hhm1, hhm2, ?_⟩)
              rw [← hp.1, ← hp.2]
              exact mkNDT_sub y1 mo1 d1 hh1 mi1 hh2 mi2

/-- Claim C6, witness: the amended trichotomy applied to the concrete
well-ordered range stamp `2024-01-01 Mon 09:00-10:30`. -/
theorem C6_amended_wit :
    parse_date_str "2024-01-01 Mon 09:00-10:30".toList =
      .ok (mkNDT 2024 1 1 9 0, mkNDT 2024 1 1 10 30) ∧
    (mkNDT 2024 1 1 10 30 = mkNDT 2024 1 1 9 0 + 86400 ∨
     mkNDT 2024 1 1 10 30 = mkNDT 2024 1 1 9 0 ∨
     ∃ d0 b t2 rest hm1 hm2 more h1 m1 h2 m2,
       splitChar ' ' (trimMatches "2024-01-01 Mon 09:00-10:30".toList) =
         d0 :: b :: t2 :: rest ∧
       splitChar '-' t2 = hm1 :: hm2 :: more ∧
       parseHM hm1 = some (h1, m1) ∧ parseHM hm2 = some (h2, m2) ∧
       mkNDT 2024 1 1 10 30 - mkNDT 2024 1 1 9 0 =
         60 * ((h2 * 60 + m2 : Int) - (h1 * 60 + m1))) := by
  refine ⟨rfl, ?_⟩
  exact C6_amended "2024-01-01 Mon 09:00-10:30".toList
    (mkNDT 2024 1 1 9 0) (mkNDT 2024 1 1 10 30) rfl

/-! ## Claim C3 -/

/-- Claim C3: for a fixed instant `now`, the classification chain places
every heading in at most one category, and `is_clocked_now` has the
highest priority: whenever the open clock started before `now`, the
heading is classified `Clocked`, regardless of the other predicates (in
particular even when `is_action_now` also holds). -/
theorem C3_classify_exclusive (h : Heading) (now : NaiveDateTime) :
    (∀ c1 c2 : Category, classify h now = some c1 → classify h now = some c2 → c1 = c2) ∧
    (h.is_clocked_now now = true → classify h now = some Category.Clocked) ∧
    (∀ c : Category, classify h now = some c →
      (c = Category.Clocked ↔ h.is_clocked_now now = true)) := by
  refine ⟨?_, ?_, ?_⟩
  · intro c1 c2 h1 h2
    rw [h1] at h2
    exact Option.some.inj h2
  · intro hc
    simp [classify, hc]
  · intro c hc
    constructor
    · intro he
      subst he
      unfold classify at hc
      split_ifs at hc with h1 h2 h3 h4 <;> first
        | exact h1
        | (injection hc with hx; cases hx)
    · intro hb
      have := by simpa [classify, hb] using hc
      exact this.symm

/-- Claim C3, witness: `hClocked` has an open clock started at 200 and a
scheduled window `[500, 1500]` containing the instant 1000; it is
classified `Clocked` and not `ActiveAction`. -/
theorem C3_wit :
    hClocked.is_clocked_now 1000 = true ∧
    hClocked.is_action_now 1000 = true ∧
    classify hClocked 1000 = some Category.Clocked ∧
    classify hClocked 1000 ≠ some Category.ActiveAction := by
  have hc := C3_classify_exclusive hClocked 1000
  refine ⟨by decide, by decide, hc.2.1 (by decide), ?_⟩
  intro he
  have := hc.1 Category.Clocked Category.ActiveAction (hc.2.1 (by decide)) he
  cases this

/-! ## Claim C4 -/

theorem mrsLoop_cons (now : NaiveDateTime) (tr : TimeRange) (rest : List TimeRange)
    (rd : Option Int) (rr : Option TimeRange) :
    mrsLoop now (tr :: rest) rd rr =
      if now < tr.start then mrsLoop now rest rd rr
      else if durLt (now - tr.start) rd then
        mrsLoop now rest (some (now - tr.start)) (some tr)
      else mrsLoop now rest rd rr := rfl

theorem mrsLoop_some_spec (now : NaiveDateTime) :
    ∀ (l : List TimeRange) (r : TimeRange), r.start ≤ now →
    ∃ res, mrsLoop now l (some (now - r.start)) (some r) = some res ∧
      (res = r ∨ res ∈ l) ∧ res.start ≤ now ∧ r.start ≤ res.start ∧
      ∀ tr ∈ l, tr.start ≤ now → tr.start ≤ res.start := by
  intro l
  induction l with
  | nil =>
    intro r hr
    exact ⟨r, rfl, Or.inl rfl, hr, le_refl _, by simp⟩
  | cons tr rest ih =>
    intro r hr
    by_cases hlt : now < tr.start
    · rcases ih r hr with ⟨res, heq, hmem, hle, hge, hall⟩
      refine ⟨res, ?_, ?_, hle, hge, ?_⟩
      · rw [mrsLoop_cons, if_pos hlt]; exact heq
      · rcases hmem with hm | hm
        · exact Or.inl hm
        · exact Or.inr (List.mem_cons_of_mem _ hm)
      · intro tr2 hm h2
        rcases List.mem_cons.mp hm with rfl | hm2
        · exact absurd h2 (not_le.mpr hlt)
        · exact hall tr2 hm2 h2
    · push_neg at hlt
      by_cases hcmp : r.start < tr.start
      · have hdur : durLt (now - tr.start) (some (now - r.start)) = true := by
          unfold durLt
          simp only [decide_eq_true_eq]
          linarith
        rcases ih tr hlt with ⟨res, heq, hmem, hle, hge, hall⟩
        refine ⟨res, ?_, ?_, hle, by linarith, ?_⟩
        · rw [mrsLoop_cons, if_neg (not_lt.mpr hlt), hdur]
          simp only [if_true]
          exact heq
        · rcases hmem with hm | hm
          · rw [hm]; exact Or.inr (List.mem_cons_self tr rest)
          · exact Or.inr (List.mem_cons_of_mem _ hm)
        · intro tr2 hm h2
          rcases List.mem_cons.mp hm with rfl | hm2
          · exact hge
          · exact hall tr2 hm2 h2
      · push_neg at hcmp
        have hdur : durLt (now - tr.start) (some (now - r.start)) = false := by
          unfold durLt
          simp only [decide_eq_false_iff_not]
          intro hx
          linarith
        rcases ih r hr with ⟨res, heq, hmem, hle, hge, hall⟩
        refine ⟨res, ?_, ?_, hle, hge, ?_⟩
        · rw [mrsLoop_cons, if_neg (not_lt.mpr hlt), hdur]
          simp only [Bool.false_eq_true, if_false]
          exact heq
        · rcases hmem with hm | hm
          · exact Or.inl hm
          · exact Or.inr (List.mem_cons_of_mem _ hm)
        · intro tr2 hm h2
          rcases List.mem_cons.mp hm with rfl | hm2
          · linarith
          · exact hall tr2 hm2 h2

theorem mrsLoop_none_cases (now : NaiveDateTime) :
    ∀ l : List TimeRange,
      (mrsLoop now l none none = none ∧ ∀ tr ∈ l, now < tr.start) ∨
      ∃ res, mrsLoop now l none none = some res ∧ res ∈ l ∧ res.start ≤ now ∧
        ∀ tr ∈ l, tr.start ≤ now → tr.start ≤ res.start := by
  intro l
  induction l with
  | nil => exact Or.inl ⟨rfl, by simp⟩
  | cons tr rest ih =>
    by_cases hlt : now < tr.start
    · rcases ih with ⟨hnone, hall⟩ | ⟨res, heq, hmem, hle, hall⟩
      · refine Or.inl ⟨?_, ?_⟩
        · rw [mrsLoop_cons, if_pos hlt]; exact hnone
        · intro tr2 hm
          rcases List.mem_cons.mp hm with rfl | hm2
          · exact hlt
          · exact hall tr2 hm2
      · refine Or.inr ⟨res, ?_, List.mem_cons_of_mem _ hmem, hle, ?_⟩
        · rw [mrsLoop_cons, if_pos hlt]; exact heq
        · intro tr2 hm h2
          rcases List.mem_cons.mp hm with rfl | hm2
          · exact absurd h2 (not_le.mpr hlt)
          · exact hall tr2 hm2 h2
    · push_neg at hlt
      rcases mrsLoop_some_spec now rest tr hlt with ⟨res, heq, hmem, hle, hge, hall⟩
      refine Or.inr ⟨res, ?_, ?_, hle, ?_⟩
      · rw [mrsLoop_cons, if_neg (not_lt.mpr hlt)]
        have hd : durLt (now - tr.start) none = true := rfl
        rw [hd]
        simp only [if_true]
        exact heq
      · rcases hmem with hm | hm
        · rw [hm]; exact List.mem_cons_self tr rest
        · exact List.mem_cons_of_mem _ hm
      · intro tr2 hm h2
        rcases List.mem_cons.mp hm with rfl | hm2
        · exact hge
        · exact hall tr2 hm2 h2

/-- The anchor of `most_recently_started` is defined exactly when the
heading has a scheduled interval or an eligible loose timestamp. -/
theorem mrs_defined (h : Heading) (now : NaiveDateTime)
    (ha : h.scheduled.isSome = true ∨ ∃ tr ∈ h.timestamps, tr.start ≤ now) :
    ∃ res, h.most_recently_started now = some res := by
  unfold Heading.most_recently_started
  rcases hs : h.scheduled with _ | s
  · rcases ha with hsome | ⟨tr0, hm, hle⟩
    · rw [hs] at hsome; cases hsome
    · rcases mrsLoop_none_cases now h.timestamps with ⟨_, hall⟩ | ⟨res, heq, _, _, _⟩
      · exact absurd hle (not_le.mpr (hall tr0 hm))
      · exact ⟨res, heq⟩
  · exact ⟨s, rfl⟩

theorem mrs_scheduled (h : Heading) (now : NaiveDateTime) (s : TimeRange)
    (hs : h.scheduled = some s) : h.most_recently_started now = some s := by
  unfold Heading.most_recently_started
  rw [hs]

theorem mrs_loose (h : Heading) (now : NaiveDateTime) (b : TimeRange)
    (hs : h.scheduled = none) (hb : h.most_recently_started now = some b) :
    b ∈ h.timestamps ∧ b.start ≤ now ∧
      ∀ tr ∈ h.timestamps, tr.start ≤ now → tr.start ≤ b.start := by
  unfold Heading.most_recently_started at hb
  rw [hs] at hb
  rcases mrsLoop_none_cases now h.timestamps with ⟨hnone, _⟩ | ⟨res, heq, hmem, hle, hall⟩
  · rw [hnone] at hb; cases hb
  · rw [heq] at hb
    injection hb with hb
    subst hb
    exact ⟨hmem, hle, hall⟩

theorem buildLowest_spec (now : NaiveDateTime) :
    ∀ hs : List Heading, (∀ h ∈ hs, ∃ r, h.most_recently_started now = some r) →
    ∃ l, buildLowest now hs = .ok l ∧ l.map Prod.snd = hs ∧
      ∀ p ∈ l, p.2.most_recently_started now = some p.1 := by
  intro hs
  induction hs with
  | nil => exact fun _ => ⟨[], rfl, rfl, by simp⟩
  | cons h rest ih =>
    intro hall
    rcases hall h (List.mem_cons_self h rest) with ⟨r, hr⟩
    rcases ih (fun h2 hm => hall h2 (List.mem_cons_of_mem _ hm)) with ⟨l, hl, hmap, hanch⟩
    refine ⟨(r, h) :: l, ?_, ?_, ?_⟩
    · unfold buildLowest
      rw [hr, hl]
    · simp [hmap]
    · intro p hp
      rcases List.mem_cons.mp hp with rfl | hp2
      · exact hr
      · exact hanch p hp2

theorem selectLowest_spec :
    ∀ (l : List (TimeRange × Heading)) (p : TimeRange × Heading),
      (selectLowest p l = p ∨ selectLowest p l ∈ l) ∧
      (selectLowest p l).1.start ≤ p.1.start ∧
      ∀ q ∈ l, (selectLowest p l).1.start ≤ q.1.start := by
  intro l
  induction l with
  | nil => exact fun p => ⟨Or.inl rfl, le_refl _, by simp⟩
  | cons q l ih =>
    intro p
    have hstep : selectLowest p (q :: l) =
        selectLowest (if q.1.start < p.1.start then q else p) l := rfl
    rcases ih (if q.1.start < p.1.start then q else p) with ⟨hmem, hle, hall⟩
    by_cases hq : q.1.start < p.1.start
    · rw [if_pos hq] at hmem hle hall
      refine ⟨?_, ?_, ?_⟩
      · rw [hstep, if_pos hq]
        rcases hmem with hm | hm
        · rw [hm]; exact Or.inr (List.mem_cons_self q l)
        · exact Or.inr (List.mem_cons_of_mem _ hm)
      · rw [hstep, if_pos hq]; linarith
      · intro q2 hm
        rw [hstep, if_pos hq]
        rcases List.mem_cons.mp hm with rfl | hm2
        · exact hle
        · exact hall q2 hm2
    · rw [if_neg hq] at hmem hle hall
      push_neg at hq
      refine ⟨?_, ?_, ?_⟩
      · rw [hstep, if_neg (not_lt.mpr hq)]
        rcases hmem with hm | hm
        · exact Or.inl hm
        · exact Or.inr (List.mem_cons_of_mem _ hm)
      · rw [hstep, if_neg (not_lt.mpr hq)]; exact hle
      · intro q2 hm
        rw [hstep, if_neg (not_lt.mpr hq)]
        rcases List.mem_cons.mp hm with rfl | hm2
        · linarith
        · exact hall q2 hm2

/-- Claim C4: on a non-empty candidate list in which every heading has a
scheduled interval or a loose timestamp begun at or before `now`,
`most_recent` returns (without panicking) a candidate whose anchor start
is minimal among all candidates' anchors; the anchor of a scheduled
heading is its scheduled interval, and the anchor of an unscheduled
heading is the loose timestamp with `start ≤ now` whose start is largest
(the most recently begun). -/
theorem C4_most_recent_earliest_anchor (hs : List Heading) (now : NaiveDateTime)
    (hne : hs ≠ [])
    (hall : ∀ h ∈ hs, h.scheduled.isSome = true ∨ ∃ tr ∈ h.timestamps, tr.start ≤ now) :
    (∃ w a, most_recent hs now = .ok (some w) ∧ w ∈ hs ∧
      w.most_recently_started now = some a ∧
      ∀ h ∈ hs, ∀ b, h.most_recently_started now = some b → a.start ≤ b.start) ∧
    (∀ h ∈ hs, ∀ s, h.scheduled = some s → h.most_recently_started now = some s) ∧
    (∀ h ∈ hs, h.scheduled = none → ∀ b, h.most_recently_started now = some b →
      b ∈ h.timestamps ∧ b.start ≤ now ∧
        ∀ tr ∈ h.timestamps, tr.start ≤ now → tr.start ≤ b.start) := by
  refine ⟨?_, fun h _ s hsch => mrs_scheduled h now s hsch,
    fun h _ hsch b hb => mrs_loose h now b hsch hb⟩
  have hdef : ∀ h ∈ hs, ∃ r, h.most_recently_started now = some r :=
    fun h hm => mrs_defined h now (hall h hm)
  rcases buildLowest_spec now hs hdef with ⟨l, hl, hmap, hanch⟩
  rcases hleq : l with _ | ⟨p, l2⟩
  · rw [hleq] at hmap
    exact absurd hmap.symm (by simpa using hne)
  · rw [hleq] at hl hmap hanch
    have hres : most_recent hs now = .ok (some (selectLowest p l2).2) := by
      unfold most_recent
      rw [if_neg (by simpa using hne), hl]
    rcases selectLowest_spec l2 p with ⟨hmem, hle, hallq⟩
    have hselmem : selectLowest p l2 ∈ p :: l2 := by
      rcases hmem with hm | hm
      · rw [hm]; exact List.mem_cons_self p l2
      · exact List.mem_cons_of_mem _ hm
    refine ⟨(selectLowest p l2).2, (selectLowest p l2).1, hres, ?_, hanch _ hselmem, ?_⟩
    · rw [← hmap]
      exact List.mem_map_of_mem Prod.snd hselmem
    · intro h hm b hb
      have hmm : h ∈ (p :: l2).map Prod.snd := hmap ▸ hm
      rcases List.mem_map.mp hmm with ⟨q, hqmem, hq2⟩
      have hqa : q.2.most_recently_started now = some q.1 := hanch q hqmem
      rw [hq2, hb] at hqa
      injection hqa with hqa
      have hqle : (selectLowest p l2).1.start ≤ q.1.start := by
        rcases List.mem_cons.mp hqmem with rfl | hm2
        · exact hle
        · exact hallq q hm2
      rw [← hqa] at hqle
      exact hqle

/-- Claim C4, witness: with `hNine` scheduled at 09:00 and `hEleven`
scheduled at 11:00 on 2024-01-01, at noon the selector surfaces a
candidate with the earliest anchor start. -/
theorem C4_wit :
    ([hNine, hEleven] ≠ ([] : List Heading)) ∧
    (∃ w a, most_recent [hNine, hEleven] (mkNDT 2024 1 1 12 0) = .ok (some w) ∧
      w ∈ [hNine, hEleven] ∧
      w.most_recently_started (mkNDT 2024 1 1 12 0) = some a ∧
      ∀ h ∈ [hNine, hEleven], ∀ b,
        h.most_recently_started (mkNDT 2024 1 1 12 0) = some b → a.start ≤ b.start) := by
  refine ⟨by decide, ?_⟩
  exact (C4_most_recent_earliest_anchor [hNine, hEleven] (mkNDT 2024 1 1 12 0)
    (by decide) (by decide)).1

/-! ## Claim C5 -/

/-- Every heading produced by the entry parser carries the title exactly as
left after marker/state stripping (tags NOT removed), the marker count as
level, and the tags computed by `parseTags` from that same title. -/
theorem parse_entry_fields {e0 : List Char} {rest : List (List Char)} {hd : Heading}
    (hp : parse_single_org_entry (e0 :: rest) = .ok (some hd)) :
    hd.level = (e0.takeWhile (fun c => c = '*')).length ∧
    hd.title = (parseState (e0.drop (hd.level + 1))).2 ∧
    hd.state = (parseState (e0.drop (hd.level + 1))).1 ∧
    hd.tags = parseTags hd.title := by
  dsimp only [parse_single_org_entry] at hp
  by_cases hlen : e0.length < (e0.takeWhile (fun c => decide (c = '*'))).length + 1
  · rw [if_pos hlen] at hp
    exact absurd hp (by simp)
  · rw [if_neg hlen] at hp
    rcases rest with _ | ⟨l1, ls⟩
    · simp only [Except.ok.injEq, Option.some.injEq] at hp
      subst hp
      exact ⟨rfl, rfl, rfl, rfl⟩
    · dsimp only at hp
      rcases hbf : parseBodyFields l1 ls with _ | ⟨sch, dl, lg, la, tss⟩ <;>
        rw [hbf] at hp
      · exact absurd hp (by simp)
      · simp only [Except.ok.injEq, Option.some.injEq] at hp
        subst hp
        exact ⟨rfl, rfl, rfl, rfl⟩

theorem parseTags_no_colon {fl : List Char} (h : endsWithColon fl = false) :
    parseTags fl = [] := by
  unfold parseTags
  rw [h]
  simp

/-- Claim C5, counterexample: the title line `* Buy milk :home:errand:`
yields the tags `{home, errand}` but the stored title is the UNSTRIPPED
`"Buy milk :home:errand:"`, not `"Buy milk"` — the parser never removes
the tag word from the title. -/
theorem C5_counter :
    ∃ hd, parse_single_org_entry ("* Buy milk :home:errand:".toList :: []) =
        .ok (some hd) ∧
      hd.tags = ["home".toList, "errand".toList] ∧
      hd.title ≠ "Buy milk".toList ∧
      hd.title = "Buy milk :home:errand:".toList := by
  refine ⟨⟨"Buy milk :home:errand:".toList, 1, [], ["home".toList, "errand".toList],
    none, none, [], none, []⟩, rfl, rfl, by decide, rfl⟩

/-- Claim C5, amended: when the remaining title ends with `:` AND its last
whitespace-delimited word also starts with `:`, that word's non-empty
`:`-separated segments become the tags, but the word is NOT removed from
the stored title; `* Buy milk :home:errand:` yields title
`"Buy milk :home:errand:"` with tags `{home, errand}`, and a title without
a trailing `:` yields no tags. -/
theorem C5_amended :
    (∀ entry hd, parse_single_org_entry entry = .ok (some hd) →
      hd.tags = parseTags hd.title ∧
      (endsWithColon hd.title = false → hd.tags = [])) ∧
    (∃ hd, parse_single_org_entry ("* Buy milk :home:errand:".toList :: []) =
        .ok (some hd) ∧
      hd.title = "Buy milk :home:errand:".toList ∧
      hd.tags = ["home".toList, "errand".toList]) := by
  constructor
  · intro entry hd hp
    rcases entry with _ | ⟨e0, rest⟩
    · exact absurd hp (by simp [parse_single_org_entry])
    · have hf := parse_entry_fields hp
      refine ⟨hf.2.2.2, fun hnc => ?_⟩
      rw [hf.2.2.2, parseTags_no_colon hnc]
  · exact ⟨⟨"Buy milk :home:errand:".toList, 1, [],
      ["home".toList, "errand".toList], none, none, [], none, []⟩, rfl, rfl, rfl⟩

/-- Claim C5, witness: the amended theorem applied to the concrete entry
`* DONE x`, whose title has no trailing colon and hence no tags. -/
theorem C5_amended_wit :
    ∃ hd, parse_single_org_entry ("* DONE x".toList :: []) = .ok (some hd) ∧
      hd.tags = parseTags hd.title ∧ endsWithColon hd.title = false ∧
      hd.tags = [] := by
  have h := C5_amended.1 ("* DONE x".toList :: [])
    ⟨"x".toList, 1, "DONE".toList, [], none, none, [], none, []⟩ rfl
  exact ⟨_, rfl, h.1, by decide, h.2 (by decide)⟩

/-! ## Claims C7 and C8 -/

/-- Claim C7: the code does NOT skip a candidate with no anchor — the
`unwrap` in `most_recent` panics as soon as any candidate heading has
neither a scheduled interval nor an eligible loose timestamp, even though
the remaining candidate alone would produce a result. -/
theorem C7_undefined_anchor_panics :
    most_recent (hAnchored :: hAnchorless :: []) 1000 = .error () ∧
    most_recent (hAnchored :: []) 1000 = .ok (some hAnchored) ∧
    hAnchorless.scheduled = none ∧ hAnchorless.timestamps = [] :=
  ⟨rfl, rfl, rfl, rfl⟩

/-- Claim C8: the entry parser does NOT terminate normally on every block
with well-formed timestamps.  A two-line block whose second line is a
`SCHEDULED:` line panics (`entry[line]` indexes past the end at the
`:PROPERTIES:` check), and so does a `:PROPERTIES:` block with no closing
`:END:` — despite the stamps being well-formed. -/
theorem C8_scheduled_tail_panics :
    parse_single_org_entry
      ("* TODO foo".toList :: "SCHEDULED: <2024-01-01 Mon>".toList :: []) =
      .error () ∧
    parse_single_org_entry
      ("* h".toList :: ":PROPERTIES:".toList :: ":FOO: 1".toList :: []) =
      .error () ∧
    parse_timerange "<2024-01-01 Mon>".toList =
      .ok ⟨mkNDT 2024 1 1 0 0, mkNDT 2024 1 1 0 0 + 86400⟩ :=
  ⟨rfl, rfl, rfl⟩

/-! ## Claim C9 -/

theorem beginsWith_star {l : List Char} (h : beginsWith ('*' :: []) l = true) :
    ∃ t, l = '*' :: t := by
  rcases l with _ | ⟨c, cs⟩
  · cases h
  · unfold beginsWith at h
    simp only [Bool.and_eq_true, decide_eq_true_eq] at h
    exact ⟨cs, by rw [h.1]⟩

theorem splitBlocksGo_star (ls : List (List Char)) :
    ∀ rest, (∃ t rs, rest = ('*' :: t) :: rs) →
    ∀ b ∈ splitBlocksGo ls rest, ∃ t bs, b = ('*' :: t) :: bs := by
  induction ls with
  | nil =>
    intro rest hrest b hb
    rcases hrest with ⟨t, rs, rfl⟩
    have hbe : b = ('*' :: t) :: rs := by simpa [splitBlocksGo] using hb
    exact ⟨t, rs, hbe⟩
  | cons l ls ih =>
    intro rest hrest b hb
    rcases hrest with ⟨t, rs, rfl⟩
    unfold splitBlocksGo at hb
    by_cases hc : (beginsWith ('*' :: []) l && !(('*' :: t) :: rs).isEmpty) = true
    · rw [if_pos hc] at hb
      rcases List.mem_cons.mp hb with rfl | hb2
      · exact ⟨t, rs, rfl⟩
      · simp only [Bool.and_eq_true] at hc
        rcases beginsWith_star hc.1 with ⟨t2, rfl⟩
        exact ih (('*' :: t2) :: []) ⟨t2, [], rfl⟩ b hb2
    · rw [if_neg hc] at hb
      exact ih (('*' :: t) :: rs ++ (l :: [])) ⟨t, rs ++ (l :: []), rfl⟩ b hb

theorem splitBlocksGo_drop_star (ls : List (List Char)) :
    ∀ rest b, b ∈ (splitBlocksGo ls rest).drop 1 → ∃ t bs, b = ('*' :: t) :: bs := by
  induction ls with
  | nil =>
    intro rest b hb
    by_cases h : rest.isEmpty <;> simp [splitBlocksGo, h] at hb
  | cons l ls ih =>
    intro rest b hb
    unfold splitBlocksGo at hb
    by_cases hc : (beginsWith ('*' :: []) l && !rest.isEmpty) = true
    · rw [if_pos hc] at hb
      have hred : (rest :: splitBlocksGo ls (l :: [])).drop 1 =
          splitBlocksGo ls (l :: []) := rfl
      rw [hred] at hb
      simp only [Bool.and_eq_true] at hc
      rcases beginsWith_star hc.1 with ⟨t2, rfl⟩
      exact splitBlocksGo_star ls (('*' :: t2) :: []) ⟨t2, [], rfl⟩ b hb
    · rw [if_neg hc] at hb
      exact ih (rest ++ (l :: [])) b hb

/-- Claim C9, counterexample: a file whose first lines are a non-heading
preamble is NOT swallowed into the first heading block — the preamble
becomes its own block and the entry parser emits a heading of level 0 for
it (with the preamble line's first character stripped). -/
theorem C9_counter :
    ∃ hs, parse_org_dates ("#+TITLE: x".toList :: "* h".toList :: []) = .ok hs ∧
      ∃ h ∈ hs, h.level = 0 := by
  refine ⟨⟨"+TITLE: x".toList, 0, [], [], none, none, [], none, []⟩ ::
    ⟨"h".toList, 1, [], [], none, none, [], none, []⟩ :: [], rfl, ?_⟩
  exact ⟨_, List.mem_cons_self _ _, rfl⟩

/-- Claim C9, amended: every block after the first produced by the file
scanner starts with a `*` line, and every heading parsed from a block
whose first line starts with `*` has level ≥ 1; but the first block may be
a non-heading preamble (it is emitted as its own block, not swallowed into
the first heading block), and such a block can yield a heading of level 0,
per the counterexample. -/
theorem C9_amended :
    (∀ lines b, b ∈ (splitBlocks lines).drop 1 → ∃ t bs, b = ('*' :: t) :: bs) ∧
    (∀ t ls hd, parse_single_org_entry (('*' :: t) :: ls) = .ok (some hd) →
      1 ≤ hd.level) := by
  constructor
  · intro lines b hb
    exact splitBlocksGo_drop_star lines [] b hb
  · intro t ls hd hp
    have hf := (parse_entry_fields hp).1
    rw [hf, List.takeWhile_cons]
    simp

/-- Claim C9, witness: in the file `a / * x / * y`, the second and third
blocks start with `*`, and the heading parsed from `* x` has level 1. -/
theorem C9_amended_wit :
    (∃ t bs, ("* y".toList :: []) = ('*' :: t) :: bs) ∧
    (1 ≤ (Heading.mk "x".toList 1 [] [] none none [] none []).level) := by
  constructor
  · exact C9_amended.1 ("a".toList :: "* x".toList :: "* y".toList :: [])
      ("* y".toList :: []) (by decide)
  · exact C9_amended.2 (" x".toList) []
      (Heading.mk "x".toList 1 [] [] none none [] none []) rfl

/-! ## Claim C10 -/

theorem matchStamp_head_ne {c : Char} (rest : List Char) (hc : c ≠ '<') :
    matchStamp (c :: rest) = none := by
  unfold matchStamp
  split
  · next heq =>
    injection heq with h1 h2
    exact absurd h1 hc
  · rfl

theorem matchStampPair_head_ne {c : Char} (rest : List Char) (hc : c ≠ '<') :
    matchStampPair (c :: rest) = none := by
  unfold matchStampPair
  rw [matchStamp_head_ne rest hc]

theorem matchStamp_shape {s m after : List Char}
    (h : matchStamp s = some (m, after)) :
    ∃ d1 t, m = '<' :: d1 :: t ∧ d1.isDigit = true := by
  unfold matchStamp at h
  split at h
  · next d1 d2 d3 d4 rest =>
    split at h
    · next hdig =>
      dsimp only at h
      split at h
      · split at h
        · cases h
        · simp only [Option.some.injEq, Prod.mk.injEq] at h
          simp only [Bool.and_eq_true] at hdig
          exact ⟨d1, d2 :: d3 :: d4 :: _, h.1.symm, hdig.1.1.1⟩
      · cases h
    · cases h
  · cases h

theorem matchStampPair_shape {s m after : List Char}
    (h : matchStampPair s = some (m, after)) :
    ∃ d1 t, m = '<' :: d1 :: t ∧ d1.isDigit = true := by
  unfold matchStampPair at h
  rcases hm1 : matchStamp s with _ | ⟨m1, r1⟩ <;> rw [hm1] at h
  · cases h
  · dsimp only at h
    rcases matchStamp_shape hm1 with ⟨d1, t, rfl, hd⟩
    split at h
    · split at h <;> simp only [Option.some.injEq, Prod.mk.injEq] at h
      · next m2 r3 hm2 =>
        exact ⟨d1, t ++ '-' :: '-' :: m2, by rw [← h.1]; simp, hd⟩
      · exact ⟨d1, t, h.1.symm, hd⟩
    · simp only [Option.some.injEq, Prod.mk.injEq] at h
      exact ⟨d1, t, h.1.symm, hd⟩

theorem findMatchesGo_no_open :
    ∀ (fuel : Nat) (l : List Char), (∀ c ∈ l, c ≠ '<') →
      findMatchesGo fuel l = [] := by
  intro fuel
  induction fuel with
  | zero => intro l h; rfl
  | succ f ih =>
    intro l h
    rcases l with _ | ⟨c, rest⟩
    · rfl
    · unfold findMatchesGo
      rw [matchStampPair_head_ne rest (h c (List.mem_cons_self c rest))]
      exact ih rest (fun c2 hm => h c2 (List.mem_cons_of_mem _ hm))

theorem findMatchesGo_shape :
    ∀ (fuel : Nat) (l m : List Char), m ∈ findMatchesGo fuel l →
      ∃ d1 t, m = '<' :: d1 :: t ∧ d1.isDigit = true := by
  intro fuel
  induction fuel with
  | zero => intro l m hm; cases hm
  | succ f ih =>
    intro l m hm
    rcases l with _ | ⟨c, rest⟩
    · cases hm
    · unfold findMatchesGo at hm
      rcases hp : matchStampPair (c :: rest) with _ | ⟨m1, after⟩ <;> rw [hp] at hm
      · exact ih rest m hm
      · rcases List.mem_cons.mp hm with rfl | hm2
        · exact matchStampPair_shape hp
        · exact ih after m hm2

/-- Claim C10: the loose-timestamp scan only ever collects matches that
start with `<` followed by a digit; a line with no `<` at all yields no
matches — in particular a `[...]`-delimited stamp in body text is never
collected, even though `parse_timerange` itself accepts the bracket form
(last two conjuncts: the parser accepts `[2024-01-01 Mon 09:00]`, yet the
scan over a body line containing exactly that stamp collects nothing). -/
theorem C10_loose_scan_angle_only (l : List Char) :
    ((∀ c ∈ l, c ≠ '<') → findMatches l = []) ∧
    (∀ m ∈ findMatches l, ∃ d1 t, m = '<' :: d1 :: t ∧ d1.isDigit = true) ∧
    parse_timerange "[2024-01-01 Mon 09:00]".toList =
      .ok ⟨mkNDT 2024 1 1 9 0, mkNDT 2024 1 1 9 0⟩ ∧
    findMatches "body [2024-01-01 Mon 09:00] txt".toList = [] := by
  exact ⟨fun h => findMatchesGo_no_open _ l h,
    fun m hm => findMatchesGo_shape _ l m hm, rfl, rfl⟩

/-- Claim C10, witness: instantiated at the body line
`body [2024-01-01 Mon 09:00] txt`, which contains no `<`, the scan returns
no matches. -/
theorem C10_wit :
    (∀ c ∈ "body [2024-01-01 Mon 09:00] txt".toList, c ≠ '<') ∧
    findMatches "body [2024-01-01 Mon 09:00] txt".toList = [] := by
  have h := (C10_loose_scan_angle_only "body [2024-01-01 Mon 09:00] txt".toList).1
  exact ⟨by decide, h (by decide)⟩

end FocusOrg
